import Mathlib

/-!
Shallow embedding of the tabular data container ("Table") of this
repository.  The container itself (RPA/Tables.py) is not present in the
source tree; only its test suite is.  The definitions below are therefore
modelled from the natural-language specification, with the repository test
suite (tests/python/test_tables.py) fixing the concrete behaviour wherever
the specification is ambiguous.
-/

namespace RPATables

instance {ε α : Type} [DecidableEq ε] [DecidableEq α] : DecidableEq (Except ε α) := fun x y =>
  match x, y with
  | Except.error a, Except.error b =>
      if h : a = b then Decidable.isTrue (congrArg Except.error h)
      else Decidable.isFalse (fun hh => h (Except.error.inj hh))
  | Except.error _, Except.ok _ => Decidable.isFalse (fun hh => Except.noConfusion hh)
  | Except.ok _, Except.error _ => Decidable.isFalse (fun hh => Except.noConfusion hh)
  | Except.ok a, Except.ok b =>
      if h : a = b then Decidable.isTrue (congrArg Except.ok h)
      else Decidable.isFalse (fun hh => h (Except.ok.inj hh))

/-- Modelled from the spec: column and row labels are strings, integers, or
other hashable scalars.  RPA/Tables.py is missing from the sources, so the
label type is modelled as a sum of the two label kinds exercised by the
repository tests. -/
inductive Label where
  | str : String → Label
  | int : Int → Label
deriving DecidableEq

/-- Modelled from the spec: cell values are heterogeneous scalars.  The test
suite exercises integers and strings, so values are modelled as that sum. -/
inductive Value where
  | str : String → Value
  | int : Int → Value
deriving DecidableEq

/-- Modelled from the spec: a cell is a stored value or the null sentinel
(the designated missing-value marker), represented by `none`. -/
abbrev Cell := Option Value

/-- Modelled from the spec: a Table is an ordered column-label sequence, an
ordered row-label sequence (the index), and the cell grid.  The grid is kept
row-major; the spec invariant that every column sequence has `len(index)`
entries becomes the well-formedness predicate `Table.WF` below. -/
structure Table where
  columns : List Label
  index : List Label
  rows : List (List Cell)
deriving DecidableEq

/-- Modelled from the spec: `dimensions` is the derived pair
`(row_count, column_count)`. -/
def Table.dimensions (T : Table) : Nat × Nat :=
  (T.index.length, T.columns.length)

/-- Well-formedness: storage is rectangular, matching the spec invariant
that every column value sequence has exactly `len(index)` entries. -/
def Table.WF (T : Table) : Prop :=
  T.rows.length = T.index.length ∧ ∀ r ∈ T.rows, r.length = T.columns.length

instance (T : Table) : Decidable T.WF := by
  unfold Table.WF; infer_instance

/-- Pad a row on the right with the null sentinel up to width `w`. -/
def padTo (w : Nat) (r : List Cell) : List Cell :=
  r ++ List.replicate (w - r.length) none

/-- Position of a label in a label list, if present. -/
def findCol (cols : List Label) (k : Label) : Option Nat :=
  match cols with
  | [] => none
  | c :: cs => if c = k then some 0 else (findCol cs k).map (· + 1)

/-- Modelled from the spec: one row-shaped input record, either mapping-like
(named fields; fixed-field records behave the same way) or a flat sequence
of positional values. -/
inductive RowData where
  | dict : List (Label × Cell) → RowData
  | flat : List Cell → RowData

/-- Grow an inferred column list to width `w`, labelling the new columns
with their integer positions and padding all accumulated rows. -/
def growCols (cols : List Label) (rows : List (List Cell)) (w : Nat) :
    List Label × List (List Cell) :=
  if cols.length < w then
    (cols ++ (List.range' cols.length (w - cols.length)).map (fun (i : Nat) => Label.int (Int.ofNat i)),
     rows.map (padTo w))
  else (cols, rows)

/-- Modelled from the spec: writing one mapping-row entry during inferred
construction.  A key already present writes into its column; an integer key
not present is resolved as a column position (growing the table, with
synthesized positional labels, when beyond the current width, as fixed by
test_import_with_integer_keys); a new string key appends a new column. -/
def applyKVCore (cols : List Label) (prev : List (List Cell)) (row : List Cell)
    (k : Label) (v : Cell) : List Label × List (List Cell) × List Cell :=
  match findCol cols k with
  | some j => (cols, prev, row.set j v)
  | none =>
    match k with
    | Label.int z =>
        if 0 ≤ z then
          if z.toNat < cols.length then (cols, prev, row.set z.toNat v)
          else
            ((growCols cols prev (z.toNat + 1)).1, (growCols cols prev (z.toNat + 1)).2,
             (padTo (z.toNat + 1) row).set z.toNat v)
        else (cols, prev, row)
    | Label.str _ =>
        (cols ++ [k], prev.map (padTo (cols.length + 1)),
         (padTo (cols.length + 1) row).set cols.length v)

/-- Fold form of `applyKVCore` over a construction state. -/
def applyKV (st : List Label × List (List Cell) × List Cell) (kv : Label × Cell) :
    List Label × List (List Cell) × List Cell :=
  applyKVCore st.1 st.2.1 st.2.2 kv.1 kv.2

/-- Process one input row during inferred-columns construction. -/
def buildStep (st : List Label × List (List Cell)) (rd : RowData) :
    List Label × List (List Cell) :=
  match rd with
  | RowData.dict kvs =>
      let st2 := kvs.foldl applyKV (st.1, st.2, List.replicate st.1.length none)
      (st2.1, st2.2.1 ++ [st2.2.2])
  | RowData.flat cells =>
      ((growCols st.1 st.2 cells.length).1,
       (growCols st.1 st.2 cells.length).2 ++
         [padTo (growCols st.1 st.2 cells.length).1.length cells])

/-- Inferred-columns construction pass over all input rows. -/
def buildInferred (data : List RowData) : List Label × List (List Cell) :=
  data.foldl buildStep ([], [])

/-- Modelled from the spec: one mapping-row entry under explicit columns:
known keys write into their column, integer keys fall back to in-range
positions, everything else is ignored. -/
def applyKVExplicitCore (cols : List Label) (row : List Cell) (k : Label) (v : Cell) :
    List Cell :=
  match findCol cols k with
  | some j => row.set j v
  | none =>
    match k with
    | Label.int z =>
        if 0 ≤ z ∧ z.toNat < cols.length then row.set z.toNat v else row
    | Label.str _ => row

/-- Fold form of `applyKVExplicitCore`. -/
def applyKVExplicit (cols : List Label) (row : List Cell) (kv : Label × Cell) :
    List Cell :=
  applyKVExplicitCore cols row kv.1 kv.2

/-- Normalize one input row against an explicit column list: extract only
the named columns/positions, pad short rows, truncate long rows. -/
def explicitRow (cols : List Label) (rd : RowData) : List Cell :=
  match rd with
  | RowData.dict kvs => kvs.foldl (applyKVExplicit cols) (List.replicate cols.length none)
  | RowData.flat cells => padTo cols.length (cells.take cols.length)

/-- Modelled from the spec: `construct(data, columns) -> Table` (the missing
RPA/Tables.py constructor).  With no explicit columns they are inferred from
the rows; with explicit columns only the named columns/positions are
extracted.  The default index is `0..N-1`. -/
def construct (data : List RowData) (cols? : Option (List Label)) : Table :=
  match cols? with
  | none =>
      let (cols, rows) := buildInferred data
      ⟨cols, (List.range rows.length).map (fun (i : Nat) => Label.int (Int.ofNat i)), rows⟩
  | some cs =>
      let rows := data.map (explicitRow cs)
      ⟨cs, (List.range rows.length).map (fun (i : Nat) => Label.int (Int.ofNat i)), rows⟩

/-- Modelled from the spec: label-then-position row resolution (the missing
shared `resolve` helper of RPA/Tables.py).  A label present in the index
resolves to its position; otherwise an integer is used as a raw position,
with negative integers counting from the end as the tests show. -/
def Table.resolveRow (T : Table) (l : Label) : Option Nat :=
  match findCol T.index l with
  | some i => some i
  | none =>
    match l with
    | Label.int z =>
        if 0 ≤ z ∧ z < (T.index.length : Int) then some z.toNat
        else if z < 0 ∧ 0 ≤ z + T.index.length then some (z + T.index.length).toNat
        else none
    | Label.str _ => none

/-- Modelled from the spec: label-then-position column resolution. -/
def Table.resolveColumn (T : Table) (l : Label) : Option Nat :=
  match findCol T.columns l with
  | some i => some i
  | none =>
    match l with
    | Label.int z =>
        if 0 ≤ z ∧ z < (T.columns.length : Int) then some z.toNat
        else if z < 0 ∧ 0 ≤ z + T.columns.length then some (z + T.columns.length).toNat
        else none
    | Label.str _ => none

/-- Modelled from the spec: `get_row` returns the addressed row's cells (a
lookup error, `none`, when the address resolves to nothing). -/
def Table.get_row (T : Table) (l : Label) : Option (List Cell) :=
  (T.resolveRow l).map (fun p => T.rows.getD p [])

/-- Read a cell by raw positions (used after resolution). -/
def Table.get_cell_pos (T : Table) (r c : Nat) : Cell :=
  (T.rows.getD r []).getD c none

/-- Modelled from the spec: `add_row(values, index)` appends one row, padded
or truncated to the current column count; a row given no explicit label is
labelled with the current row count (the position it lands at), as fixed by
test_table_append_rows_index. -/
def Table.add_row (T : Table) (values : List Cell) (idx : Option Label) : Table :=
  let label := idx.getD (Label.int (Int.ofNat T.index.length))
  { T with index := T.index ++ [label],
           rows := T.rows ++ [padTo T.columns.length (values.take T.columns.length)] }

/-- Modelled from the spec: `add_rows(rows, indexes)` appends many rows; the
first rows receive the explicitly given labels, the rest are auto-labelled
by `add_row`. -/
def Table.add_rows : Table → List (List Cell) → List Label → Table
  | T, [], _ => T
  | T, r :: rs, [] => Table.add_rows (T.add_row r none) rs []
  | T, r :: rs, i :: is => Table.add_rows (T.add_row r (some i)) rs is

/-- Modelled from the spec: `set_cell` at raw positions.  A target beyond
the current bounds grows the table: missing rows are appended null-filled
with synthesized sequential integer labels, missing columns likewise, and
then the addressed cell is written. -/
def Table.set_cell_pos (T : Table) (r c : Nat) (v : Cell) : Table :=
  let nR := max T.rows.length (r + 1)
  let nC := max T.columns.length (c + 1)
  let index2 := T.index ++
    (List.range' T.index.length (nR - T.index.length)).map (fun (i : Nat) => Label.int (Int.ofNat i))
  let columns2 := T.columns ++
    (List.range' T.columns.length (nC - T.columns.length)).map (fun (i : Nat) => Label.int (Int.ofNat i))
  let grown := (T.rows ++
    List.replicate (nR - T.rows.length) (List.replicate T.columns.length none)).map (padTo nC)
  { columns := columns2, index := index2,
    rows := grown.set r ((grown.getD r []).set c v) }

/-- Modelled from the spec: `set_cell(row, column, value)` resolves both
coordinates label-first and then writes with growth.  An integer label not
present in the addressing set is used directly as the (possibly
out-of-range) target position. -/
def Table.set_cell (T : Table) (row col : Label) (v : Cell) : Table :=
  let r :=
    match T.resolveRow row with
    | some p => p
    | none => match row with
      | Label.int z => if 0 ≤ z then z.toNat else 0
      | Label.str _ => 0
  let c :=
    match T.resolveColumn col with
    | some p => p
    | none => match col with
      | Label.int z => if 0 ≤ z then z.toNat else 0
      | Label.str _ => 0
  T.set_cell_pos r c v

/-- Modelled from the spec: `clear()` empties the index and all column
value sequences while keeping the column labels. -/
def Table.clear (T : Table) : Table :=
  { T with index := [], rows := [] }

/-- Modelled from the spec: `slice(start, end)` returns a new Table holding
the rows at positions `start..end`, both inclusive; an omitted start
defaults to the first row and an omitted end to the last; `start > end` is
a validation error. -/
def Table.slice (T : Table) (start? stop? : Option Nat) : Except String Table :=
  let s := start?.getD 0
  let e := stop?.getD (T.index.length - 1)
  if s > e then Except.error "slice start greater than end"
  else Except.ok
    { T with index := (T.index.drop s).take (e - s + 1),
             rows := (T.rows.drop s).take (e - s + 1) }

/-- A row is empty when every cell is the null sentinel. -/
def rowEmpty (r : List Cell) : Bool :=
  r.all (fun c => c.isNone)

/-- Modelled from the spec: `filter_empty_rows()` removes every row whose
cells are all null, wherever it occurs, keeping the remaining rows and
their labels in order. -/
def Table.filter_empty_rows (T : Table) : Table :=
  let kept := (T.index.zip T.rows).filter (fun p => !rowEmpty p.2)
  { T with index := kept.map (fun p => p.1), rows := kept.map (fun p => p.2) }

/-- Modelled from the spec: `trim_empty_rows()` removes only the trailing
all-null rows, scanning from the end and stopping at the first non-null
row. -/
def Table.trim_empty_rows (T : Table) : Table :=
  let kept := ((T.index.zip T.rows).reverse.dropWhile (fun p => rowEmpty p.2)).reverse
  { T with index := kept.map (fun p => p.1), rows := kept.map (fun p => p.2) }

/-- Modelled from the spec: the fixed total order on non-null values used
by `sort_by_column` (any fixed total order is allowed by the spec; strings
ordering before integers matches test_keyword_sort_table_by_column). -/
def Value.leB : Value → Value → Bool
  | Value.str s, Value.str t => decide (s ≤ t)
  | Value.str _, Value.int _ => true
  | Value.int _, Value.str _ => false
  | Value.int m, Value.int n => decide (m ≤ n)

/-- Modelled from the spec: cell comparison for ascending sort; the null
sentinel sorts as greater than any non-null value. -/
def Cell.ascLe : Cell → Cell → Bool
  | none, none => true
  | none, some _ => false
  | some _, none => true
  | some a, some b => Value.leB a b

/-- Cell comparison honouring the sort direction: descending is ascending
with the arguments flipped, which puts nulls first. -/
def cellLe (asc : Bool) (a b : Cell) : Bool :=
  if asc then Cell.ascLe a b else Cell.ascLe b a

/-- Comparison on position-decorated sort keys: by cell first, by original
position on ties.  A stable sort is exactly a sort by this relation. -/
def pairLe (asc : Bool) (a b : Nat × Cell) : Bool :=
  if cellLe asc a.2 b.2 then
    (if cellLe asc b.2 a.2 then decide (a.1 ≤ b.1) else true)
  else false

/-- Row positions decorated with their sort key for column `j`. -/
def decorate (T : Table) (j : Nat) : List (Nat × Cell) :=
  (List.range T.rows.length).map (fun i => (i, (T.rows.getD i []).getD j none))

/-- Row positions of a table in sorted order for `sort_by_column`, obtained
by a stable sort of the positions by the values of column `j`. -/
def sortPositions (T : Table) (j : Nat) (asc : Bool) : List Nat :=
  ((decorate T j).insertionSort (fun a b => pairLe asc a b = true)).map (fun p => p.1)

/-- Modelled from the spec: `sort_by_column(column, ascending)` stably
reorders the rows (and their index labels) by the named column's values;
an unknown column is a lookup error (`none`). -/
def Table.sort_by_column (T : Table) (col : Label) (asc : Bool) : Option Table :=
  (T.resolveColumn col).map (fun j =>
    let P := sortPositions T j asc
    { T with index := P.map (fun p => T.index.getD p (Label.int 0)),
             rows := P.map (fun p => T.rows.getD p []) })

/-- Does a field need excel-dialect quoting when written? -/
def needQuote (cs : List Char) : Bool :=
  cs.any (fun c => c = ',' ∨ c = '"' ∨ c = '\n' ∨ c = '\r')

/-- Double every quote character of a field body, as the excel dialect
does inside a quoted field. -/
def dub : List Char → List Char
  | [] => []
  | c :: rest => if c = '"' then '"' :: '"' :: dub rest else c :: dub rest

/-- Write one field, quoting it when it holds a delimiter, a quote or a
line break. -/
def escChars (cs : List Char) : List Char :=
  if needQuote cs then '"' :: (dub cs ++ ['"']) else cs

/-- Comma-join the written fields of a record. -/
def joinFields : List (List Char) → List Char
  | [] => []
  | [f] => escChars f
  | f :: rest => escChars f ++ ',' :: joinFields rest

/-- Modelled from the spec: serialize one record per the excel dialect.  A
record consisting of a single empty field is written as a quoted empty
field, as the Python csv writer does, so it stays distinct from an empty
record. -/
def renderRecord (fields : List (List Char)) : List Char :=
  if fields = [[]] then ['"', '"'] else joinFields fields

/-- Character-level csv scanner: input, in-quotes flag, current field
(reversed), finished fields (reversed). -/
def scan : List Char → Bool → List Char → List (List Char) → List (List Char)
  | [], _, cur, acc => (cur.reverse :: acc).reverse
  | c :: rest, inq, cur, acc =>
      if inq then
        if c = '"' then
          match rest with
          | c2 :: rest2 =>
              if c2 = '"' then scan rest2 true (c :: cur) acc
              else scan (c2 :: rest2) false cur acc
          | [] => scan [] false cur acc
        else scan rest true (c :: cur) acc
      else
        if c = ',' then scan rest false [] (cur.reverse :: acc)
        else if c = '"' then scan rest true cur acc
        else scan rest false (c :: cur) acc

/-- Modelled from the spec: parse one delimited record into its fields; a
blank record has no fields, as with the Python csv reader. -/
def parseRecord (cs : List Char) : List (List Char) :=
  if cs = [] then [] else scan cs false [] []

/-- Render a column label as header text. -/
def labelField : Label → List Char
  | Label.str s => s.data
  | Label.int n => (toString n).data

/-- Modelled from the spec: render a cell for csv output; the null sentinel
becomes an empty field. -/
def cellField : Cell → List Char
  | none => []
  | some (Value.str s) => s.data
  | some (Value.int n) => (toString n).data

/-- Modelled from the spec: `write_csv` produces the header record (the
column labels) followed by one record per row in index order. -/
def writeCsvRecords (T : Table) (header : Bool) : List (List Char) :=
  (if header then [renderRecord (T.columns.map labelField)] else []) ++
    T.rows.map (fun r => renderRecord (r.map cellField))

/-- Build a table from parsed csv records under explicit columns: all
fields are text, short records are padded with null, long ones truncated. -/
def tableFromParsed (cols : List Label) (recs : List (List Char)) : Table :=
  let rows := recs.map (fun rec =>
    padTo cols.length (((parseRecord rec).take cols.length).map
      (fun f => some (Value.str (String.mk f)))))
  ⟨cols, (List.range rows.length).map (fun (i : Nat) => Label.int (Int.ofNat i)), rows⟩

/-- Modelled from the spec: `read_csv` parses delimited records; with a
header the first record supplies the columns; every value is read as text
with no type inference; the index is regenerated as `0..N-1`. -/
def readCsvRecords (records : List (List Char)) (header : Bool) : Table :=
  if header then
    match records with
    | [] => ⟨[], [], []⟩
    | h :: rest =>
        tableFromParsed ((parseRecord h).map (fun f => Label.str (String.mk f))) rest
  else
    let parsed := records.map parseRecord
    let w := parsed.foldr (fun r m => max r.length m) 0
    ⟨(List.range w).map (fun (i : Nat) => Label.int (Int.ofNat i)),
     (List.range parsed.length).map (fun (i : Nat) => Label.int (Int.ofNat i)),
     parsed.map (fun r => padTo w (r.map (fun f => some (Value.str (String.mk f)))))⟩

/-- Mapping-row input of concrete scenario A (the first four rows of the
test fixture DATA_DICT). -/
def scenarioA : List RowData :=
  [ RowData.dict [(Label.str "one", some (Value.int 1)), (Label.str "two", some (Value.int 2)),
      (Label.str "three", some (Value.int 3))],
    RowData.dict [(Label.str "one", some (Value.str "a")), (Label.str "two", some (Value.str "b")),
      (Label.str "three", some (Value.str "c"))],
    RowData.dict [(Label.str "one", some (Value.int 1)), (Label.str "two", some (Value.int 2)),
      (Label.str "four", some (Value.int 4))],
    RowData.dict [] ]

/-- Mapping-row input of the test fixture DATA_DICT (six rows). -/
def dataDict : List RowData :=
  scenarioA ++
  [ RowData.dict [(Label.str "one", some (Value.int 1)), (Label.str "two", some (Value.int 2)),
      (Label.str "three", some (Value.int 3)), (Label.str "four", some (Value.int 4))],
    RowData.dict [] ]

/-- The table built from DATA_DICT, the main fixture of the test suite. -/
def tDict : Table := construct dataDict none

/-- Mapping-row input with integer keys, from test_import_with_integer_keys. -/
def intKeyData : List RowData :=
  [ RowData.dict [(Label.int 1, some (Value.str "Sub Total")), (Label.int 2, some (Value.str "$85.00 "))],
    RowData.dict [(Label.int 1, some (Value.str "Tax")), (Label.int 2, some (Value.str "$8.50 "))],
    RowData.dict [(Label.int 1, some (Value.str "Total")), (Label.int 2, some (Value.str "$93.50 "))] ]

/-- An all-string two-by-two table with delimiter and quote characters in
its cells, for the csv round trip. -/
def tStr : Table :=
  Table.mk [Label.str "a", Label.str "b"] [Label.int 0, Label.int 1]
    [[some (Value.str "x"), some (Value.str "y,z")],
     [some (Value.str "q\"w"), some (Value.str "")]]

/-- A table holding a null-sentinel cell, for the csv round trip. -/
def tNull : Table :=
  Table.mk [Label.str "a", Label.str "b"] [Label.int 0]
    [[some (Value.str "x"), none]]

/-! Helper lemmas. -/

/-- Rectangularity of an accumulated construction state. -/
def RectSt (st : List Label × List (List Cell)) : Prop :=
  ∀ r ∈ st.2, r.length = st.1.length

/-- Rectangularity of a construction state carrying a row in progress. -/
def TriRect (st : List Label × List (List Cell) × List Cell) : Prop :=
  (∀ r ∈ st.2.1, r.length = st.1.length) ∧ st.2.2.length = st.1.length

/-- The grown grid of `set_cell_pos`, before the cell write. -/
def grownRows (T : Table) (r c : Nat) : List (List Cell) :=
  (T.rows ++ List.replicate (max T.rows.length (r + 1) - T.rows.length)
    (List.replicate T.columns.length none)).map (padTo (max T.columns.length (c + 1)))

/-- Column view of the row-major grid: the stored value sequence of the
column at position `j`. -/
def Table.columnValues (T : Table) (j : Nat) : List Cell :=
  T.rows.map (fun r => r.getD j none)

/-- Integer label synthesized from a position. -/
def intLabel (i : Nat) : Label :=
  Label.int (Int.ofNat i)

/-- Is a label a string label? -/
def isStr : Label → Bool
  | Label.str _ => true
  | Label.int _ => false

/-- Modelled from the spec words (refinement side): append a key to the
accumulated column list when it has not been seen yet. -/
def insertNew (acc : List Label) (k : Label) : List Label :=
  if k ∈ acc then acc else acc ++ [k]

/-- Modelled from the spec words (refinement side): the union of all keys
seen across the mapping rows, in first-seen order. -/
def firstSeenUnion (rows : List (List Label)) : List Label :=
  rows.foldl (fun acc ks => ks.foldl insertNew acc) []

/-- Is a cell a string value? -/
def isStrCell : Cell → Bool
  | some (Value.str _) => true
  | _ => false

/-- The head of the remaining input is not a quote (the shape of the
continuation after a closing quote in well-formed csv output). -/
def headNotQuote : List Char → Prop
  | [] => True
  | c :: _ => ¬ c = '"'

theorem foldl_invariant {α β : Type} (P : α → Prop) (f : α → β → α)
    (h : ∀ s x, P s → P (f s x)) : ∀ (l : List β) (s : α), P s → P (l.foldl f s)
  | [], _, hs => hs
  | x :: l, s, hs => foldl_invariant P f h l (f s x) (h s x hs)

theorem padTo_length (w : Nat) (r : List Cell) : (padTo w r).length = max r.length w := by
  simp [padTo]; omega

theorem padTo_length_of_le {w : Nat} {r : List Cell} (h : r.length ≤ w) :
    (padTo w r).length = w := by
  rw [padTo_length]; omega

theorem growCols_fst_length (cols : List Label) (rows : List (List Cell)) (w : Nat) :
    (growCols cols rows w).1.length = max cols.length w := by
  unfold growCols
  split
  · next hlt =>
    simp only [List.length_append, List.length_map, List.length_range']
    omega
  · next hge => simp only []; omega

theorem growCols_snd (cols : List Label) (rows : List (List Cell)) (w : Nat)
    (h : ∀ r ∈ rows, r.length = cols.length) :
    ∀ r ∈ (growCols cols rows w).2, r.length = (growCols cols rows w).1.length := by
  unfold growCols
  split
  · next hlt =>
    intro r hr
    simp only [List.mem_map] at hr
    obtain ⟨r0, hr0, rfl⟩ := hr
    have := h r0 hr0
    simp only [padTo_length, List.length_append, List.length_map, List.length_range']
    omega
  · next hge => simpa using h

theorem applyKVCore_rect (cols : List Label) (prev : List (List Cell)) (row : List Cell)
    (k : Label) (v : Cell)
    (hprev : ∀ r ∈ prev, r.length = cols.length) (hrow : row.length = cols.length) :
    TriRect (applyKVCore cols prev row k v) := by
  unfold applyKVCore
  split
  · exact ⟨hprev, by simpa using hrow⟩
  · split
    · rename_i z hfc
      by_cases hz : 0 ≤ z
      · rw [if_pos hz]
        by_cases hp : z.toNat < cols.length
        · rw [if_pos hp]
          exact ⟨hprev, by simpa using hrow⟩
        · rw [if_neg hp]
          have h1 := growCols_fst_length cols prev (z.toNat + 1)
          have h2 := growCols_snd cols prev (z.toNat + 1) hprev
          refine ⟨h2, ?_⟩
          simp only [List.length_set]
          rw [h1, padTo_length]
          omega
      · rw [if_neg hz]
        exact ⟨hprev, hrow⟩
    · refine ⟨?_, ?_⟩
      · intro r hr
        simp only [List.mem_map] at hr
        obtain ⟨r0, hr0, rfl⟩ := hr
        have := hprev r0 hr0
        simp only [padTo_length, List.length_append, List.length_singleton]
        omega
      · simp only [List.length_set, padTo_length, List.length_append, List.length_singleton]
        omega

theorem applyKV_rect (st : List Label × List (List Cell) × List Cell)
    (kv : Label × Cell) (h : TriRect st) : TriRect (applyKV st kv) :=
  applyKVCore_rect st.1 st.2.1 st.2.2 kv.1 kv.2 h.1 h.2

theorem buildStep_rect (st : List Label × List (List Cell)) (rd : RowData)
    (h : RectSt st) : RectSt (buildStep st rd) := by
  cases rd with
  | dict kvs =>
    have hst : TriRect (st.1, st.2, List.replicate st.1.length none) :=
      ⟨h, by simp⟩
    have hres := foldl_invariant TriRect applyKV applyKV_rect kvs _ hst
    intro r hr
    simp only [buildStep, List.mem_append, List.mem_singleton] at hr ⊢
    rcases hr with hr | rfl
    · exact hres.1 r hr
    · exact hres.2
  | flat cells =>
    intro r hr
    simp only [buildStep, List.mem_append, List.mem_singleton] at hr ⊢
    rcases hr with hr | rfl
    · exact growCols_snd st.1 st.2 cells.length h r hr
    · rw [padTo_length, growCols_fst_length]
      omega

theorem buildInferred_rect (data : List RowData) : RectSt (buildInferred data) :=
  foldl_invariant RectSt buildStep buildStep_rect data ([], []) (by intro r hr; cases hr)

theorem applyKVExplicitCore_length (cols : List Label) (row : List Cell)
    (k : Label) (v : Cell) (h : row.length = cols.length) :
    (applyKVExplicitCore cols row k v).length = cols.length := by
  unfold applyKVExplicitCore
  split
  · simpa using h
  · split
    · rename_i z hfc
      by_cases hz : 0 ≤ z ∧ z.toNat < cols.length
      · rw [if_pos hz]; simpa using h
      · rw [if_neg hz]; exact h
    · exact h

theorem explicitRow_length (cols : List Label) (rd : RowData) :
    (explicitRow cols rd).length = cols.length := by
  cases rd with
  | dict kvs =>
    unfold explicitRow
    refine foldl_invariant (fun r => r.length = cols.length)
      (applyKVExplicit cols) ?_ kvs (List.replicate cols.length none) (by simp)
    intro s x hs
    exact applyKVExplicitCore_length cols s x.1 x.2 hs
  | flat cells =>
    unfold explicitRow
    rw [padTo_length]
    have := List.length_take_le cols.length cells
    omega

theorem construct_WF (data : List RowData) (cols? : Option (List Label)) :
    (construct data cols?).WF := by
  cases cols? with
  | none =>
    have h := buildInferred_rect data
    constructor
    · simp only [construct, List.length_map, List.length_range]
    · intro r hr
      exact h r hr
  | some cs =>
    constructor
    · simp only [construct, List.length_map, List.length_range]
    · intro r hr
      simp only [construct, List.mem_map] at hr
      obtain ⟨rd, _, rfl⟩ := hr
      exact explicitRow_length cs rd

theorem add_row_WF (T : Table) (values : List Cell) (idx : Option Label)
    (h : T.WF) : (T.add_row values idx).WF := by
  obtain ⟨hlen, hrect⟩ := h
  constructor
  · simp [Table.add_row, hlen]
  · intro r hr
    simp only [Table.add_row, List.mem_append, List.mem_singleton] at hr
    rcases hr with hr | rfl
    · exact hrect r hr
    · simp only [Table.add_row]
      rw [padTo_length]
      have := List.length_take_le T.columns.length values
      omega

theorem add_rows_WF : ∀ (rs : List (List Cell)) (T : Table) (is : List Label),
    T.WF → (T.add_rows rs is).WF
  | [], T, is, h => by cases is <;> exact h
  | r :: rs, T, [], h =>
      add_rows_WF rs (T.add_row r none) [] (add_row_WF T r none h)
  | r :: rs, T, i :: is, h =>
      add_rows_WF rs (T.add_row r (some i)) is (add_row_WF T r (some i) h)

theorem set_cell_pos_eq (T : Table) (r c : Nat) (v : Cell) :
    T.set_cell_pos r c v =
      ⟨T.columns ++ (List.range' T.columns.length
          (max T.columns.length (c + 1) - T.columns.length)).map (fun (i : Nat) => Label.int (Int.ofNat i)),
       T.index ++ (List.range' T.index.length
          (max T.rows.length (r + 1) - T.index.length)).map (fun (i : Nat) => Label.int (Int.ofNat i)),
       (grownRows T r c).set r (((grownRows T r c).getD r []).set c v)⟩ := rfl

theorem grownRows_length (T : Table) (r c : Nat) :
    (grownRows T r c).length = max T.rows.length (r + 1) := by
  simp only [grownRows, List.length_map, List.length_append, List.length_replicate]
  omega

theorem grownRows_mem_length (T : Table) (r c : Nat) (h : T.WF) :
    ∀ x ∈ grownRows T r c, x.length = max T.columns.length (c + 1) := by
  intro x hx
  simp only [grownRows, List.mem_map, List.mem_append] at hx
  obtain ⟨x0, hx0, rfl⟩ := hx
  rcases hx0 with hx0 | hx0
  · have := h.2 x0 hx0
    rw [padTo_length]; omega
  · have := List.eq_of_mem_replicate hx0
    subst this
    rw [padTo_length, List.length_replicate]; omega

theorem set_cell_pos_WF (T : Table) (r c : Nat) (v : Cell) (h : T.WF) :
    (T.set_cell_pos r c v).WF := by
  rw [set_cell_pos_eq]
  have hlen := h.1
  constructor
  · simp only [List.length_set, grownRows_length, List.length_append, List.length_map,
      List.length_range']
    omega
  · intro x hx
    simp only [List.length_append, List.length_map, List.length_range']
    have hx2 := List.mem_or_eq_of_mem_set hx
    rcases hx2 with hx2 | rfl
    · rw [grownRows_mem_length T r c h x hx2]; omega
    · rw [List.length_set]
      have hlt : r < (grownRows T r c).length := by
        rw [grownRows_length]; omega
      have hmem : (grownRows T r c).getD r [] ∈ grownRows T r c := by
        rw [List.getD_eq_getElem _ _ hlt]
        exact List.getElem_mem hlt
      rw [grownRows_mem_length T r c h _ hmem]; omega

theorem clear_WF (T : Table) : T.clear.WF := by
  constructor <;> simp [Table.clear]

theorem filter_empty_rows_WF (T : Table) (h : T.WF) : T.filter_empty_rows.WF := by
  constructor
  · simp [Table.filter_empty_rows]
  · intro x hx
    simp only [Table.filter_empty_rows, List.mem_map] at hx
    obtain ⟨p, hp, rfl⟩ := hx
    exact h.2 p.2 (List.of_mem_zip (List.mem_of_mem_filter hp)).2

theorem trim_empty_rows_WF (T : Table) (h : T.WF) : T.trim_empty_rows.WF := by
  constructor
  · simp [Table.trim_empty_rows]
  · intro x hx
    simp only [Table.trim_empty_rows, List.mem_map, List.mem_reverse] at hx
    obtain ⟨p, hp, rfl⟩ := hx
    have hp2 : p ∈ (T.index.zip T.rows).reverse :=
      (List.dropWhile_sublist _).mem hp
    rw [List.mem_reverse] at hp2
    exact h.2 p.2 (List.of_mem_zip hp2).2

/-! Order lemmas for the sort relation. -/

theorem Value.leB_refl (a : Value) : Value.leB a a = true := by
  cases a <;> simp [Value.leB]

theorem Value.leB_total (a b : Value) : Value.leB a b = true ∨ Value.leB b a = true := by
  cases a <;> cases b <;> simp [Value.leB]
  · exact le_total _ _
  · exact le_total _ _

theorem Value.leB_trans {a b c : Value} (h1 : Value.leB a b = true)
    (h2 : Value.leB b c = true) : Value.leB a c = true := by
  cases a <;> cases b <;> cases c <;> simp [Value.leB] at h1 h2 ⊢
  · exact le_trans h1 h2
  · exact le_trans h1 h2

theorem Cell.ascLe_refl (a : Cell) : Cell.ascLe a a = true := by
  cases a <;> simp [Cell.ascLe, Value.leB_refl]

theorem Cell.ascLe_total (a b : Cell) : Cell.ascLe a b = true ∨ Cell.ascLe b a = true := by
  cases a <;> cases b <;> simp [Cell.ascLe]
  exact Value.leB_total _ _

theorem Cell.ascLe_trans {a b c : Cell} (h1 : Cell.ascLe a b = true)
    (h2 : Cell.ascLe b c = true) : Cell.ascLe a c = true := by
  cases a <;> cases b <;> cases c <;> simp [Cell.ascLe] at h1 h2 ⊢
  exact Value.leB_trans h1 h2

theorem Cell.ascLe_none {a : Cell} (h : Cell.ascLe none a = true) : a = none := by
  cases a
  · rfl
  · simp [Cell.ascLe] at h

theorem cellLe_refl (asc : Bool) (a : Cell) : cellLe asc a a = true := by
  cases asc <;> simp [cellLe, Cell.ascLe_refl]

theorem cellLe_total (asc : Bool) (a b : Cell) :
    cellLe asc a b = true ∨ cellLe asc b a = true := by
  cases asc <;> simp [cellLe]
  · exact Cell.ascLe_total b a
  · exact Cell.ascLe_total a b

theorem cellLe_trans (asc : Bool) {a b c : Cell} (h1 : cellLe asc a b = true)
    (h2 : cellLe asc b c = true) : cellLe asc a c = true := by
  cases asc <;> simp [cellLe] at h1 h2 ⊢
  · exact Cell.ascLe_trans h2 h1
  · exact Cell.ascLe_trans h1 h2

theorem pairLe_iff (asc : Bool) (a b : Nat × Cell) :
    pairLe asc a b = true ↔
      (cellLe asc a.2 b.2 = true ∧ (cellLe asc b.2 a.2 = true → a.1 ≤ b.1)) := by
  unfold pairLe
  by_cases h1 : cellLe asc a.2 b.2 = true
  · by_cases h2 : cellLe asc b.2 a.2 = true
    · simp [h1, h2]
    · simp [h1, h2]
  · simp [h1]

theorem pairLe_total (asc : Bool) (a b : Nat × Cell) :
    pairLe asc a b = true ∨ pairLe asc b a = true := by
  rw [pairLe_iff, pairLe_iff]
  by_cases h1 : cellLe asc a.2 b.2 = true
  · by_cases h2 : cellLe asc b.2 a.2 = true
    · rcases Nat.le_total a.1 b.1 with h | h
      · exact Or.inl ⟨h1, fun _ => h⟩
      · exact Or.inr ⟨h2, fun _ => h⟩
    · exact Or.inl ⟨h1, fun h => absurd h h2⟩
  · rcases cellLe_total asc a.2 b.2 with h | h
    · exact absurd h h1
    · exact Or.inr ⟨h, fun hh => absurd hh h1⟩

theorem pairLe_trans (asc : Bool) {a b c : Nat × Cell}
    (h1 : pairLe asc a b = true) (h2 : pairLe asc b c = true) :
    pairLe asc a c = true := by
  rw [pairLe_iff] at h1 h2 ⊢
  obtain ⟨hab, hab2⟩ := h1
  obtain ⟨hbc, hbc2⟩ := h2
  refine ⟨cellLe_trans asc hab hbc, fun hca => ?_⟩
  have hba : cellLe asc b.2 a.2 = true := cellLe_trans asc hbc hca
  have hcb : cellLe asc c.2 b.2 = true := cellLe_trans asc hca hab
  exact le_trans (hab2 hba) (hbc2 hcb)

/-! Properties of `sortPositions`. -/

theorem decorate_map_fst (T : Table) (j : Nat) :
    (decorate T j).map (fun p => p.1) = List.range T.rows.length := by
  unfold decorate
  rw [List.map_map]
  exact List.map_id _

theorem decorate_mem {T : Table} {j : Nat} {p : Nat × Cell} (h : p ∈ decorate T j) :
    p.1 < T.rows.length ∧ p.2 = (T.rows.getD p.1 []).getD j none := by
  simp only [decorate, List.mem_map, List.mem_range] at h
  obtain ⟨i, hi, rfl⟩ := h
  exact ⟨hi, rfl⟩

theorem sortPositions_perm (T : Table) (j : Nat) (asc : Bool) :
    List.Perm (sortPositions T j asc) (List.range T.rows.length) := by
  unfold sortPositions
  have hp := List.perm_insertionSort (fun a b => pairLe asc a b = true) (decorate T j)
  have hm := hp.map (fun p => p.1)
  rwa [decorate_map_fst] at hm

theorem sortPositions_mem {T : Table} {j : Nat} {asc : Bool} {p : Nat}
    (h : p ∈ sortPositions T j asc) : p < T.rows.length := by
  have := (sortPositions_perm T j asc).mem_iff.mp h
  simpa [List.mem_range] using this

theorem sortPositions_nodup (T : Table) (j : Nat) (asc : Bool) :
    (sortPositions T j asc).Nodup :=
  (sortPositions_perm T j asc).nodup_iff.mpr (List.nodup_range T.rows.length)

theorem sortPositions_pairwise (T : Table) (j : Nat) (asc : Bool) :
    (sortPositions T j asc).Pairwise (fun a b =>
      pairLe asc (a, (T.rows.getD a []).getD j none) (b, (T.rows.getD b []).getD j none)
        = true) := by
  unfold sortPositions
  rw [List.pairwise_map]
  have hs := @List.sorted_insertionSort (Nat × Cell)
    (fun a b => pairLe asc a b = true) (fun a b => instDecidableEqBool _ _)
    ⟨fun a b => pairLe_total asc a b⟩ ⟨fun a b c => pairLe_trans asc⟩ (decorate T j)
  refine List.Pairwise.imp_of_mem ?_ hs
  intro a b ha hb hr
  have ha2 := decorate_mem ((List.mem_insertionSort _).1 ha)
  have hb2 := decorate_mem ((List.mem_insertionSort _).1 hb)
  have hfa : a = (a.1, (T.rows.getD a.1 []).getD j none) := by
    obtain ⟨x, y⟩ := a
    simp only at ha2 ⊢
    rw [ha2.2]
  have hfb : b = (b.1, (T.rows.getD b.1 []).getD j none) := by
    obtain ⟨x, y⟩ := b
    simp only at hb2 ⊢
    rw [hb2.2]
  rw [← hfa, ← hfb]
  exact hr

theorem sortPositions_sorted (T : Table) (j : Nat) (asc : Bool) :
    (sortPositions T j asc).Pairwise (fun a b =>
      cellLe asc ((T.rows.getD a []).getD j none) ((T.rows.getD b []).getD j none) = true) := by
  refine List.Pairwise.imp ?_ (sortPositions_pairwise T j asc)
  intro a b h
  exact ((pairLe_iff asc _ _).1 h).1

theorem sortPositions_stable (T : Table) (j : Nat) (asc : Bool) :
    (sortPositions T j asc).Pairwise (fun a b =>
      (T.rows.getD a []).getD j none = (T.rows.getD b []).getD j none → a ≤ b) := by
  refine List.Pairwise.imp ?_ (sortPositions_pairwise T j asc)
  intro a b h heq
  have h2 := (pairLe_iff asc _ _).1 h
  refine h2.2 ?_
  simp only [heq]
  exact cellLe_refl asc _


theorem sort_by_column_eq (T : Table) (col : Label) (j : Nat) (asc : Bool)
    (h : T.resolveColumn col = some j) :
    T.sort_by_column col asc = some
      ⟨T.columns,
       (sortPositions T j asc).map (fun p => T.index.getD p (Label.int 0)),
       (sortPositions T j asc).map (fun p => T.rows.getD p [])⟩ := by
  unfold Table.sort_by_column
  rw [h]
  rfl

theorem sort_by_column_WF (T : Table) (col : Label) (asc : Bool) (T0 : Table)
    (h : T.WF) (hs : T.sort_by_column col asc = some T0) : T0.WF := by
  cases hr : T.resolveColumn col with
  | none => unfold Table.sort_by_column at hs; rw [hr] at hs; exact absurd hs (by simp)
  | some j =>
    rw [sort_by_column_eq T col j asc hr] at hs
    have hT0 := Option.some.inj hs
    subst hT0
    constructor
    · simp only [List.length_map]
    · intro x hx
      simp only [List.mem_map] at hx
      obtain ⟨p, hp, rfl⟩ := hx
      have hlt : p < T.rows.length := sortPositions_mem hp
      have hmem : T.rows.getD p [] ∈ T.rows := by
        rw [List.getD_eq_getElem _ _ hlt]
        exact List.getElem_mem hlt
      exact h.2 _ hmem


theorem columnValues_length (T : Table) (h : T.WF) (j : Nat) :
    (T.columnValues j).length = T.index.length := by
  simp only [Table.columnValues, List.length_map]
  exact h.1

/-! Claim theorems. -/

/-- C1: for every Table constructed from ragged row-shaped input (mapping
rows, fixed-field records, or flat sequences of unequal length), and after
every modelled mutating operation, each column's stored value sequence has
exactly `len(index)` entries, with cells missing from the input filled by
the null sentinel; concretely, constructing from scenario A yields columns
[one, two, three, four], row 2 equal to [1, 2, null, 4] and row 3 equal to
[null, null, null, null]. -/
theorem claim_C1_ragged_storage :
    (∀ (T : Table), T.WF → ∀ j, (T.columnValues j).length = T.index.length) ∧
    (∀ (data : List RowData) (cols? : Option (List Label)), (construct data cols?).WF) ∧
    (∀ (T : Table) (v : List Cell) (i : Option Label), T.WF → (T.add_row v i).WF) ∧
    (∀ (T : Table) (rs : List (List Cell)) (is : List Label), T.WF → (T.add_rows rs is).WF) ∧
    (∀ (T : Table) (r c : Nat) (v : Cell), T.WF → (T.set_cell_pos r c v).WF) ∧
    (∀ T : Table, T.clear.WF) ∧
    (∀ T : Table, T.WF → T.filter_empty_rows.WF) ∧
    (∀ T : Table, T.WF → T.trim_empty_rows.WF) ∧
    (∀ (T : Table) (col : Label) (asc : Bool) (T0 : Table),
      T.WF → T.sort_by_column col asc = some T0 → T0.WF) ∧
    (construct scenarioA none).columns =
      [Label.str "one", Label.str "two", Label.str "three", Label.str "four"] ∧
    (construct scenarioA none).rows.getD 2 [] =
      [some (Value.int 1), some (Value.int 2), none, some (Value.int 4)] ∧
    (construct scenarioA none).rows.getD 3 [] = [none, none, none, none] :=
  ⟨columnValues_length, construct_WF,
   add_row_WF,
   fun T rs is h => add_rows_WF rs T is h,
   set_cell_pos_WF,
   clear_WF,
   filter_empty_rows_WF,
   trim_empty_rows_WF,
   sort_by_column_WF,
   by decide, by decide, by decide⟩

/-- Witness for C1: the preservation conjuncts applied at the concrete test
fixture table with the hypotheses discharged by evaluation. -/
theorem claim_C1_ragged_storage_witness :
    tDict.WF ∧ (tDict.add_row [some (Value.str "x")] none).WF ∧
      (tDict.set_cell_pos 9 7 (some (Value.str "y"))).WF ∧
      ∀ j, (tDict.columnValues j).length = tDict.index.length :=
  ⟨by decide,
   claim_C1_ragged_storage.2.2.1 tDict [some (Value.str "x")] none (by decide),
   claim_C1_ragged_storage.2.2.2.2.1 tDict 9 7 (some (Value.str "y")) (by decide),
   claim_C1_ragged_storage.1 tDict (by decide)⟩

/-- C9: `clear()` empties the index and every column's value sequence while
leaving the column labels unchanged, so that afterwards dimensions are
`(0, len(columns))`. -/
theorem claim_C9_clear (T : Table) :
    T.clear.columns = T.columns ∧ T.clear.index = [] ∧
      (∀ j, T.clear.columnValues j = []) ∧
      T.clear.dimensions = (0, T.columns.length) :=
  ⟨rfl, rfl, fun _ => rfl, rfl⟩


theorem findCol_eq_none {cols : List Label} {k : Label} (h : k ∉ cols) :
    findCol cols k = none := by
  induction cols with
  | nil => rfl
  | cons c cs ih =>
    have hc : ¬ c = k := fun hc => h (hc ▸ List.mem_cons_self c cs)
    have hk : k ∉ cs := fun hm => h (List.mem_cons_of_mem c hm)
    simp only [findCol]
    rw [if_neg hc, ih hk]
    rfl

theorem findCol_mem {cols : List Label} {k : Label} (h : k ∈ cols) :
    (findCol cols k).isSome = true := by
  induction cols with
  | nil => cases h
  | cons c cs ih =>
    simp only [findCol]
    by_cases hc : c = k
    · rw [if_pos hc]; rfl
    · rw [if_neg hc]
      have hm : k ∈ cs := by
        rcases List.mem_cons.1 h with h | h
        · exact absurd h.symm hc
        · exact h
      cases hf : findCol cs k with
      | none => rw [hf] at ih; exact absurd (ih hm) (by simp)
      | some j => rfl

/-- C10: for every table with `n` rows and every integer `p` with
`-n ≤ p ≤ -1` that is not itself a row label, row access by `p` resolves to
the row at position `n + p`, so negative positions count from the end. -/
theorem claim_C10_negative_row_positions (T : Table) (p : Int)
    (h1 : -(T.index.length : Int) ≤ p) (h2 : p ≤ -1)
    (h3 : Label.int p ∉ T.index) :
    T.resolveRow (Label.int p) = some (p + T.index.length).toNat ∧
      T.get_row (Label.int p) = some (T.rows.getD (p + T.index.length).toNat []) := by
  have hres : T.resolveRow (Label.int p) = some (p + T.index.length).toNat := by
    unfold Table.resolveRow
    rw [findCol_eq_none h3]
    show (if 0 ≤ p ∧ p < (T.index.length : Int) then some p.toNat
          else if p < 0 ∧ 0 ≤ p + (T.index.length : Int) then some (p + (T.index.length : Int)).toNat
          else none) = some (p + (T.index.length : Int)).toNat
    rw [if_neg (by omega), if_pos (by constructor <;> omega)]
  refine ⟨hres, ?_⟩
  unfold Table.get_row
  rw [hres]
  rfl

/-- Witness for C10 at the test fixture: position -1 addresses the last
row. -/
theorem claim_C10_negative_row_positions_witness :
    (-(tDict.index.length : Int) ≤ -1 ∧ (-1 : Int) ≤ -1 ∧
        Label.int (-1) ∉ tDict.index) ∧
      tDict.resolveRow (Label.int (-1)) = some 5 ∧
      tDict.get_row (Label.int (-1)) = some [none, none, none, none] := by
  refine ⟨by decide, ?_⟩
  have h := claim_C10_negative_row_positions tDict (-1) (by decide) (by decide) (by decide)
  refine ⟨?_, ?_⟩
  · rw [h.1]; decide
  · rw [h.2]; decide


theorem getD_replicate_none (n i : Nat) :
    (List.replicate n (none : Cell)).getD i none = none := by
  by_cases h : i < n
  · rw [List.getD_eq_getElem _ _ (by simpa using h)]
    exact List.getElem_replicate none _
  · exact List.getD_eq_default _ none (by simpa using Nat.le_of_not_lt h)

theorem padTo_getD_low {w i : Nat} {r : List Cell} (h : i < r.length) :
    (padTo w r).getD i none = r.getD i none := by
  unfold padTo
  have hl : i < (r ++ List.replicate (w - r.length) none).length := by
    simp; omega
  rw [List.getD_eq_getElem _ _ hl, List.getD_eq_getElem _ _ h]
  exact List.getElem_append_left h

theorem padTo_getD_high {w i : Nat} {r : List Cell} (h : r.length ≤ i) :
    (padTo w r).getD i none = none := by
  unfold padTo
  by_cases hl : i < (r ++ List.replicate (w - r.length) none).length
  · rw [List.getD_eq_getElem _ _ hl]
    rw [List.getElem_append_right h]
    exact List.getElem_replicate none _
  · exact List.getD_eq_default _ none (Nat.le_of_not_lt hl)

theorem grownRows_getD_lt {T : Table} {r c r2 : Nat} (h : r2 < T.rows.length) :
    (grownRows T r c).getD r2 [] =
      padTo (max T.columns.length (c + 1)) (T.rows.getD r2 []) := by
  unfold grownRows
  have h1 : r2 < ((T.rows ++ List.replicate (max T.rows.length (r + 1) - T.rows.length)
      (List.replicate T.columns.length none)).map
      (padTo (max T.columns.length (c + 1)))).length := by
    simp; omega
  have h2 : r2 < (T.rows ++ List.replicate (max T.rows.length (r + 1) - T.rows.length)
      (List.replicate T.columns.length none)).length := by
    simp; omega
  rw [List.getD_eq_getElem _ _ h1, List.getElem_map, List.getElem_append_left h,
    List.getD_eq_getElem _ _ h]

theorem grownRows_getD_ge {T : Table} {r c r2 : Nat} (hge : T.rows.length ≤ r2)
    (hlt : r2 < max T.rows.length (r + 1)) :
    (grownRows T r c).getD r2 [] =
      padTo (max T.columns.length (c + 1)) (List.replicate T.columns.length none) := by
  unfold grownRows
  have h1 : r2 < ((T.rows ++ List.replicate (max T.rows.length (r + 1) - T.rows.length)
      (List.replicate T.columns.length none)).map
      (padTo (max T.columns.length (c + 1)))).length := by
    simp; omega
  have h2 : r2 < (T.rows ++ List.replicate (max T.rows.length (r + 1) - T.rows.length)
      (List.replicate T.columns.length none)).length := by
    simp; omega
  rw [List.getD_eq_getElem _ _ h1, List.getElem_map, List.getElem_append_right hge]
  congr 1
  exact List.getElem_replicate _ _

theorem grownRows_getD_allnone {T : Table} {r c r2 c2 : Nat}
    (hge : T.rows.length ≤ r2) (hlt : r2 < max T.rows.length (r + 1)) :
    ((grownRows T r c).getD r2 []).getD c2 none = none := by
  rw [grownRows_getD_ge hge hlt]
  by_cases hc : c2 < T.columns.length
  · rw [padTo_getD_low (by simpa using hc)]
    exact getD_replicate_none _ _
  · exact padTo_getD_high (by simpa using Nat.le_of_not_lt hc)


theorem grownRows_getD_length {T : Table} {r c r2 : Nat} (h : T.WF)
    (hlt : r2 < max T.rows.length (r + 1)) :
    ((grownRows T r c).getD r2 []).length = max T.columns.length (c + 1) := by
  by_cases h2 : r2 < T.rows.length
  · rw [grownRows_getD_lt h2]
    rw [padTo_length_of_le]
    have hmem : T.rows.getD r2 [] ∈ T.rows := by
      rw [List.getD_eq_getElem _ _ h2]
      exact List.getElem_mem h2
    rw [h.2 _ hmem]
    omega
  · rw [grownRows_getD_ge (Nat.le_of_not_lt h2) hlt]
    rw [padTo_length_of_le]
    simp only [List.length_replicate]
    omega

/-- C5: `set_cell` at a coordinate beyond the current bounds grows the
table so that the dimensions encompass the target, null-fills the newly
created cells, writes the given value at the target, and leaves every
previously existing cell unchanged. -/
theorem claim_C5_set_cell_growth (T : Table) (r c : Nat) (v : Cell) (h : T.WF) :
    (T.set_cell_pos r c v).dimensions =
      (max T.index.length (r + 1), max T.columns.length (c + 1)) ∧
    (T.set_cell_pos r c v).get_cell_pos r c = v ∧
    (∀ r2 c2, r2 < T.index.length → c2 < T.columns.length → ¬(r2 = r ∧ c2 = c) →
      (T.set_cell_pos r c v).get_cell_pos r2 c2 = T.get_cell_pos r2 c2) ∧
    (∀ r2 c2, r2 < max T.index.length (r + 1) → c2 < max T.columns.length (c + 1) →
      (T.index.length ≤ r2 ∨ T.columns.length ≤ c2) → ¬(r2 = r ∧ c2 = c) →
      (T.set_cell_pos r c v).get_cell_pos r2 c2 = none) := by
  have hrl := h.1
  have hrows : (T.set_cell_pos r c v).rows =
      (grownRows T r c).set r (((grownRows T r c).getD r []).set c v) := by
    rw [set_cell_pos_eq]
  have hglen : (grownRows T r c).length = max T.rows.length (r + 1) :=
    grownRows_length T r c
  have hrowslen : (T.set_cell_pos r c v).rows.length = max T.rows.length (r + 1) := by
    rw [hrows, List.length_set, hglen]
  have hrlt : r < (grownRows T r c).length := by rw [hglen]; omega
  have hgetr : (T.set_cell_pos r c v).rows.getD r [] =
      ((grownRows T r c).getD r []).set c v := by
    rw [hrows]
    have h1 : r < ((grownRows T r c).set r (((grownRows T r c).getD r []).set c v)).length := by
      rw [List.length_set]; exact hrlt
    rw [List.getD_eq_getElem _ _ h1]
    exact List.getElem_set_self h1
  have hgetne : ∀ r2, r2 < max T.rows.length (r + 1) → ¬ r2 = r →
      (T.set_cell_pos r c v).rows.getD r2 [] = (grownRows T r c).getD r2 [] := by
    intro r2 hr2 hne
    rw [hrows]
    have h1 : r2 < ((grownRows T r c).set r (((grownRows T r c).getD r []).set c v)).length := by
      rw [List.length_set, hglen]; omega
    have h2 : r2 < (grownRows T r c).length := by rw [hglen]; omega
    rw [List.getD_eq_getElem _ _ h1, List.getD_eq_getElem _ _ h2]
    exact List.getElem_set_ne (fun hh => hne hh.symm) h1
  refine ⟨?_, ?_, ?_, ?_⟩
  · rw [set_cell_pos_eq]
    unfold Table.dimensions
    simp only [List.length_append, List.length_map, List.length_range', List.length_set,
      Prod.mk.injEq]
    constructor <;> omega
  · unfold Table.get_cell_pos
    rw [hgetr]
    have hclen : c < (((grownRows T r c).getD r []).set c v).length := by
      rw [List.length_set, grownRows_getD_length h (by omega)]
      omega
    rw [List.getD_eq_getElem _ _ hclen]
    exact List.getElem_set_self hclen
  · intro r2 c2 hr2 hc2 hne
    have hr2r : r2 < T.rows.length := by omega
    have hrowmem : T.rows.getD r2 [] ∈ T.rows := by
      rw [List.getD_eq_getElem _ _ hr2r]
      exact List.getElem_mem hr2r
    have hrowlen : (T.rows.getD r2 []).length = T.columns.length := h.2 _ hrowmem
    unfold Table.get_cell_pos
    by_cases hrr : r2 = r
    · have hcc : ¬ c2 = c := fun hcc2 => hne ⟨hrr, hcc2⟩
      rw [hrr, hgetr]
      have hrn : r < T.rows.length := by omega
      have hrowmem2 : T.rows.getD r [] ∈ T.rows := by
        rw [List.getD_eq_getElem _ _ hrn]
        exact List.getElem_mem hrn
      have hrowlen2 : (T.rows.getD r []).length = T.columns.length := h.2 _ hrowmem2
      have hc2l : c2 < (((grownRows T r c).getD r []).set c v).length := by
        rw [List.length_set, grownRows_getD_length h (by omega)]
        omega
      have hc2l2 : c2 < ((grownRows T r c).getD r []).length := by
        rw [grownRows_getD_length h (by omega)]
        omega
      rw [List.getD_eq_getElem _ _ hc2l]
      rw [List.getElem_set_ne (fun hh => hcc hh.symm) hc2l]
      rw [← List.getD_eq_getElem _ none hc2l2]
      rw [grownRows_getD_lt hrn, padTo_getD_low (by omega)]
    · rw [hgetne r2 (by omega) hrr]
      rw [grownRows_getD_lt hr2r, padTo_getD_low (by omega)]
  · intro r2 c2 hr2 hc2 hout hne
    unfold Table.get_cell_pos
    by_cases hrr : r2 = r
    · have hcc : ¬ c2 = c := fun hcc2 => hne ⟨hrr, hcc2⟩
      rw [hrr, hgetr]
      have hc2l : c2 < (((grownRows T r c).getD r []).set c v).length := by
        rw [List.length_set, grownRows_getD_length h (by omega)]
        omega
      have hc2l2 : c2 < ((grownRows T r c).getD r []).length := by
        rw [grownRows_getD_length h (by omega)]
        omega
      rw [List.getD_eq_getElem _ _ hc2l]
      rw [List.getElem_set_ne (fun hh => hcc hh.symm) hc2l]
      rw [← List.getD_eq_getElem _ none hc2l2]
      by_cases hr2n : r < T.rows.length
      · have hcout : T.columns.length ≤ c2 := by omega
        rw [grownRows_getD_lt hr2n]
        refine padTo_getD_high ?_
        have hrowmem : T.rows.getD r [] ∈ T.rows := by
          rw [List.getD_eq_getElem _ _ hr2n]
          exact List.getElem_mem hr2n
        rw [h.2 _ hrowmem]
        exact hcout
      · exact grownRows_getD_allnone (Nat.le_of_not_lt hr2n) (by omega)
    · rw [hgetne r2 (by omega) hrr]
      by_cases hr2n : r2 < T.rows.length
      · have hcout : T.columns.length ≤ c2 := by omega
        rw [grownRows_getD_lt hr2n]
        refine padTo_getD_high ?_
        have hrowmem : T.rows.getD r2 [] ∈ T.rows := by
          rw [List.getD_eq_getElem _ _ hr2n]
          exact List.getElem_mem hr2n
        rw [h.2 _ hrowmem]
        exact hcout
      · exact grownRows_getD_allnone (Nat.le_of_not_lt hr2n) (by omega)

/-- Witness for C5: the two concrete scenarios of the test suite, obtained
from the claim theorem: an empty table grows to (1,1) on set_cell(0,0), and
the (6,4) fixture grows to (10,8) on set_cell(9,7). -/
theorem claim_C5_set_cell_growth_witness :
    ((Table.mk [] [] []).set_cell_pos 0 0 (some (Value.str "value"))).dimensions = (1, 1) ∧
    ((Table.mk [] [] []).set_cell_pos 0 0 (some (Value.str "value"))).get_cell_pos 0 0 =
      some (Value.str "value") ∧
    (tDict.set_cell_pos 9 7 (some (Value.str ">9000"))).dimensions = (10, 8) ∧
    (tDict.set_cell_pos 9 7 (some (Value.str ">9000"))).get_cell_pos 9 7 =
      some (Value.str ">9000") ∧
    (tDict.set_cell_pos 9 7 (some (Value.str ">9000"))).get_cell_pos 2 3 =
      tDict.get_cell_pos 2 3 := by
  have h1 := claim_C5_set_cell_growth (Table.mk [] [] []) 0 0
    (some (Value.str "value")) (by decide)
  have h2 := claim_C5_set_cell_growth tDict 9 7 (some (Value.str ">9000")) (by decide)
  refine ⟨?_, h1.2.1, ?_, h2.2.1, ?_⟩
  · rw [h1.1]; decide
  · rw [h2.1]; decide
  · exact h2.2.2.1 2 3 (by decide) (by decide) (by decide)


/-- C6: `slice(start, end)` fails with a validation error exactly when
`start > end`; otherwise, for valid positions, it returns a new Table with
the same columns containing exactly the rows at positions `start..end`
inclusive, i.e. `end - start + 1` rows; an omitted start defaults to the
first row and an omitted end to the last. -/
theorem claim_C6_slice (T : Table) (h : T.WF) :
    (∀ s e, (T.slice (some s) (some e)).isOk = true ↔ s ≤ e) ∧
    (∀ s e T2, s ≤ e → e < T.index.length → T.slice (some s) (some e) = Except.ok T2 →
      T2.columns = T.columns ∧ T2.index.length = e - s + 1 ∧
      T2.rows.length = e - s + 1 ∧
      (∀ k, k < e - s + 1 → T2.rows.getD k [] = T.rows.getD (s + k) []) ∧
      (∀ k, k < e - s + 1 → T2.index.getD k (Label.int 0) = T.index.getD (s + k) (Label.int 0))) ∧
    T.slice none none = Except.ok T ∧
    (∀ e, T.slice none (some e) = T.slice (some 0) (some e)) ∧
    (∀ s, T.slice (some s) none = T.slice (some s) (some (T.index.length - 1))) := by
  have hrl := h.1
  refine ⟨?_, ?_, ?_, fun _ => rfl, fun _ => rfl⟩
  · intro s e
    simp only [Table.slice, Option.getD_some]
    by_cases hse : s > e
    · rw [if_pos hse]
      constructor
      · intro hh
        exact Bool.noConfusion hh
      · intro hh
        omega
    · rw [if_neg hse]
      constructor
      · intro _
        omega
      · intro _
        rfl
  · intro s e T2 hse he hok
    simp only [Table.slice, Option.getD_some] at hok
    rw [if_neg (by omega)] at hok
    have hT2 := Except.ok.inj hok
    subst hT2
    refine ⟨rfl, ?_, ?_, ?_, ?_⟩
    · simp only [Option.getD_some, List.length_take, List.length_drop]
      omega
    · simp only [Option.getD_some, List.length_take, List.length_drop]
      omega
    · intro k hk
      simp only [Option.getD_some]
      have h1 : k < ((T.rows.drop s).take (e - s + 1)).length := by
        simp only [List.length_take, List.length_drop]
        omega
      have h2 : s + k < T.rows.length := by omega
      rw [List.getD_eq_getElem _ _ h1, List.getD_eq_getElem _ _ h2]
      rw [List.getElem_take, List.getElem_drop]
    · intro k hk
      simp only [Option.getD_some]
      have h1 : k < ((T.index.drop s).take (e - s + 1)).length := by
        simp only [List.length_take, List.length_drop]
        omega
      have h2 : s + k < T.index.length := by omega
      rw [List.getD_eq_getElem _ _ h1, List.getD_eq_getElem _ _ h2]
      rw [List.getElem_take, List.getElem_drop]
  · simp only [Table.slice, Option.getD_none]
    rw [if_neg (by omega)]
    have hi : (T.index.drop 0).take (T.index.length - 1 + 1) = T.index := by
      rw [List.drop_zero]
      exact List.take_of_length_le (by omega)
    have hr : (T.rows.drop 0).take (T.index.length - 1 + 1) = T.rows := by
      rw [List.drop_zero]
      exact List.take_of_length_le (by omega)
    simp only [Nat.sub_zero]
    rw [hi, hr]

/-- Witness for C6 at the test fixture: the whole-table default slice, a
one-row slice, and the failing reversed range. -/
theorem claim_C6_slice_witness :
    tDict.slice none none = Except.ok tDict ∧
      ((tDict.slice (some 3) (some 2)).isOk = true ↔ (3 : Nat) ≤ 2) ∧
      (∀ T2, tDict.slice (some 2) (some 2) = Except.ok T2 → T2.index.length = 1) ∧
      (tDict.slice (some 3) (some 2)).isOk = false := by
  have h := claim_C6_slice tDict (by decide)
  refine ⟨h.2.2.1, h.1 3 2, ?_, by decide⟩
  intro T2 hok
  exact ((h.2.1 2 2 T2 (by omega) (by decide) hok).2.1)


theorem add_rows_index : ∀ (rows : List (List Cell)) (T : Table) (idxs : List Label),
    idxs.length ≤ rows.length →
    (T.add_rows rows idxs).index =
      T.index ++ idxs ++
        (List.range' (T.index.length + idxs.length) (rows.length - idxs.length)).map intLabel
  | [], T, idxs, h => by
      have hnil : idxs = [] := List.eq_nil_of_length_eq_zero (Nat.le_zero.mp h)
      subst hnil
      show T.index = _
      simp [List.range']
  | r :: rs, T, [], h => by
      show (Table.add_rows (T.add_row r none) rs []).index = _
      rw [add_rows_index rs (T.add_row r none) [] (by simp)]
      simp only [Table.add_row, Option.getD_none, List.append_nil, List.length_append,
        List.length_cons, List.length_nil, Nat.add_zero, Nat.sub_zero, List.length_singleton]
      rw [List.range'_succ]
      simp only [List.map_cons, List.append_assoc, List.singleton_append, intLabel]
  | r :: rs, T, i :: is, h => by
      show (Table.add_rows (T.add_row r (some i)) rs is).index = _
      rw [add_rows_index rs (T.add_row r (some i)) is (by simpa using Nat.le_of_succ_le_succ h)]
      simp only [Table.add_row, Option.getD_some, List.length_append, List.length_cons,
        List.length_nil, Nat.zero_add]
      have h1 : T.index.length + 1 + is.length = T.index.length + (is.length + 1) := by omega
      have h2 : rs.length - is.length = rs.length + 1 - (is.length + 1) := by omega
      rw [h1, h2]
      simp only [List.append_assoc, List.singleton_append, List.cons_append, List.nil_append]


/-- C3 counterexample: appending three rows with explicit labels
[new_one, new_two] to the six-row fixture (index 0..5, maximum integer
label 5) gives the third appended row the label 8 (the row count at its
insertion), not 6 (the next label after the maximum integer-like label), so
the claim as stated fails. -/
theorem claim_C3_counterexample :
    (tDict.add_rows
        [[some (Value.str "first")], [some (Value.str "second")], [some (Value.str "third")]]
        [Label.str "new_one", Label.str "new_two"]).index =
      [Label.int 0, Label.int 1, Label.int 2, Label.int 3, Label.int 4, Label.int 5,
       Label.str "new_one", Label.str "new_two", Label.int 8] ∧
    ¬ (tDict.add_rows
        [[some (Value.str "first")], [some (Value.str "second")], [some (Value.str "third")]]
        [Label.str "new_one", Label.str "new_two"]).index.getD 8 (Label.int 0) =
      Label.int 6 := by
  constructor
  · decide
  · decide

/-- C3 as amended: rows appended without an explicit label receive
sequential integer labels continuing from the current number of rows (the
position each lands at), not from the maximum integer-like label: after the
explicitly labelled rows, the k-th auto-labelled row gets integer label
`len(index) + k` counted at the start of the append. -/
theorem claim_C3_auto_labels (T : Table) (rows : List (List Cell)) (idxs : List Label)
    (h : idxs.length ≤ rows.length) :
    (T.add_rows rows idxs).index =
      T.index ++ idxs ++
        (List.range' (T.index.length + idxs.length) (rows.length - idxs.length)).map intLabel ∧
    (∀ v, (T.add_row v none).index = T.index ++ [intLabel T.index.length]) :=
  ⟨add_rows_index rows T idxs h, fun _ => rfl⟩

/-- Witness for C3 at the test scenario: two explicit labels and one
auto-generated label 8 = 6 + 2. -/
theorem claim_C3_auto_labels_witness :
    (tDict.add_rows
        [[some (Value.str "first")], [some (Value.str "second")], [some (Value.str "third")]]
        [Label.str "new_one", Label.str "new_two"]).index =
      tDict.index ++ [Label.str "new_one", Label.str "new_two"] ++
        (List.range' (tDict.index.length + 2) 1).map intLabel :=
  (claim_C3_auto_labels tDict
    [[some (Value.str "first")], [some (Value.str "second")], [some (Value.str "third")]]
    [Label.str "new_one", Label.str "new_two"] (by decide)).1


theorem head_dropWhile_false {α : Type} (p : α → Bool) :
    ∀ (l : List α) (x : α), (l.dropWhile p).head? = some x → p x = false
  | [], x, h => Option.noConfusion h
  | a :: l, x, h => by
      rw [List.dropWhile_cons] at h
      by_cases hp : p a = true
      · rw [if_pos hp] at h
        exact head_dropWhile_false p l x h
      · rw [if_neg hp] at h
        have hx : a = x := Option.some.inj h
        subst hx
        exact Bool.eq_false_iff.mpr hp

theorem filter_zip_snd (p : List Cell → Bool) :
    ∀ (xs : List Label) (ys : List (List Cell)), xs.length = ys.length →
      ((xs.zip ys).filter (fun q => p q.2)).map (fun q => q.2) = ys.filter p
  | [], [], _ => rfl
  | [], y :: ys, h => by cases h
  | x :: xs, [], h => by cases h
  | x :: xs, y :: ys, h => by
      have hlen : xs.length = ys.length := by simpa using h
      by_cases hp : p y = true
      · simp [List.zip_cons_cons, List.filter_cons, hp, filter_zip_snd p xs ys hlen]
      · simp [List.zip_cons_cons, List.filter_cons, hp, filter_zip_snd p xs ys hlen]

/-- C8: `trim_empty_rows` removes exactly the maximal suffix of all-null
rows (stopping at the first row with a non-null cell scanning from the
end), keeping every other row, including non-trailing all-null rows, in
original order; `filter_empty_rows` removes every all-null row wherever it
occurs, keeping the remaining rows in their original relative order. -/
theorem claim_C8_trim_filter (T : Table) (h : T.WF) :
    T.trim_empty_rows.columns = T.columns ∧
    (∃ t, T.trim_empty_rows.rows ++ t = T.rows ∧ ∀ r ∈ t, rowEmpty r = true) ∧
    (∃ t2, T.trim_empty_rows.index ++ t2 = T.index) ∧
    T.trim_empty_rows.index.length = T.trim_empty_rows.rows.length ∧
    (∀ r, T.trim_empty_rows.rows.getLast? = some r → rowEmpty r = false) ∧
    T.filter_empty_rows.columns = T.columns ∧
    T.filter_empty_rows.rows = T.rows.filter (fun r => !rowEmpty r) ∧
    T.filter_empty_rows.index.length = T.filter_empty_rows.rows.length := by
  have hrl := h.1
  have hsplit := List.takeWhile_append_dropWhile
    (fun (q : Label × List Cell) => rowEmpty q.2) (T.index.zip T.rows).reverse
  have hrev : ((T.index.zip T.rows).reverse.dropWhile
        (fun q => rowEmpty q.2)).reverse ++
      ((T.index.zip T.rows).reverse.takeWhile (fun q => rowEmpty q.2)).reverse =
      T.index.zip T.rows := by
    rw [← List.reverse_append, hsplit, List.reverse_reverse]
  refine ⟨rfl, ?_, ?_, ?_, ?_, rfl, ?_, ?_⟩
  · refine ⟨(((T.index.zip T.rows).reverse.takeWhile
      (fun q => rowEmpty q.2)).reverse).map (fun q => q.2), ?_, ?_⟩
    · show ((((T.index.zip T.rows).reverse.dropWhile
          (fun q => rowEmpty q.2)).reverse).map (fun q => q.2)) ++ _ = _
      rw [← List.map_append, hrev]
      exact List.map_snd_zip T.index T.rows (by omega)
    · intro r hr
      simp only [List.mem_map, List.mem_reverse] at hr
      obtain ⟨q, hq, rfl⟩ := hr
      have hh := List.mem_takeWhile_imp hq
      simpa using hh
  · refine ⟨(((T.index.zip T.rows).reverse.takeWhile
      (fun q => rowEmpty q.2)).reverse).map (fun q => q.1), ?_⟩
    show ((((T.index.zip T.rows).reverse.dropWhile
        (fun q => rowEmpty q.2)).reverse).map (fun q => q.1)) ++ _ = _
    rw [← List.map_append, hrev]
    exact List.map_fst_zip T.index T.rows (by omega)
  · simp only [Table.trim_empty_rows, List.length_map]
  · intro r hlast
    simp only [Table.trim_empty_rows] at hlast
    rw [List.getLast?_map] at hlast
    rw [List.getLast?_reverse] at hlast
    cases hq : ((T.index.zip T.rows).reverse.dropWhile
        (fun q => rowEmpty q.2)).head? with
    | none => rw [hq] at hlast; cases hlast
    | some q =>
      rw [hq] at hlast
      have hr : q.2 = r := by simpa using hlast
      have := head_dropWhile_false (fun (q : Label × List Cell) => rowEmpty q.2) _ q hq
      rw [← hr]
      exact this
  · simp only [Table.filter_empty_rows]
    exact filter_zip_snd (fun r => !rowEmpty r) T.index T.rows (by omega)
  · simp only [Table.filter_empty_rows, List.length_map]

/-- Witness for C8 at the test fixture: five rows remain after trimming
(the non-trailing empty row 3 kept), four after filtering. -/
theorem claim_C8_trim_filter_witness :
    (∃ t, tDict.trim_empty_rows.rows ++ t = tDict.rows ∧ ∀ r ∈ t, rowEmpty r = true) ∧
      tDict.trim_empty_rows.index.length = 5 ∧
      tDict.trim_empty_rows.rows.getD 3 [] = [none, none, none, none] ∧
      tDict.filter_empty_rows.rows = tDict.rows.filter (fun r => !rowEmpty r) ∧
      tDict.filter_empty_rows.index.length = 4 := by
  have h := claim_C8_trim_filter tDict (by decide)
  exact ⟨h.2.1, by decide, by decide, h.2.2.2.2.2.2.1, by decide⟩


/-- C4: `sort_by_column(column, ascending=True)` is a stable sort of the
row order by that column's values in which every null-sentinel cell sorts
as greater than any non-null value (nulls last ascending, nulls first
descending), and rows with equal sort keys keep their original relative
order.  The sorted table is the original rows reindexed by a sorted
permutation of the row positions. -/
theorem claim_C4_sort_stable (T : Table) (col : Label) (j : Nat)
    (hj : T.resolveColumn col = some j) :
    T.sort_by_column col true = some
      ⟨T.columns,
       (sortPositions T j true).map (fun p => T.index.getD p (Label.int 0)),
       (sortPositions T j true).map (fun p => T.rows.getD p [])⟩ ∧
    List.Perm (sortPositions T j true) (List.range T.rows.length) ∧
    (sortPositions T j true).Pairwise (fun a b =>
      Cell.ascLe ((T.rows.getD a []).getD j none) ((T.rows.getD b []).getD j none) = true) ∧
    (sortPositions T j true).Pairwise (fun a b =>
      (T.rows.getD a []).getD j none = (T.rows.getD b []).getD j none → a < b) ∧
    (sortPositions T j true).Pairwise (fun a b =>
      (T.rows.getD a []).getD j none = none → (T.rows.getD b []).getD j none = none) ∧
    (sortPositions T j false).Pairwise (fun a b =>
      (T.rows.getD b []).getD j none = none → (T.rows.getD a []).getD j none = none) := by
  refine ⟨sort_by_column_eq T col j true hj, sortPositions_perm T j true, ?_, ?_, ?_, ?_⟩
  · refine List.Pairwise.imp ?_ (sortPositions_sorted T j true)
    intro a b hab
    simpa [cellLe] using hab
  · have hnd := sortPositions_nodup T j true
    have hst := sortPositions_stable T j true
    have hcomb := hst.and hnd
    refine List.Pairwise.imp ?_ hcomb
    intro a b hab heq
    have h1 := hab.1 heq
    have h2 : a ≠ b := hab.2
    omega
  · refine List.Pairwise.imp ?_ (sortPositions_sorted T j true)
    intro a b hab hn
    rw [hn] at hab
    simp only [cellLe, if_pos] at hab
    exact Cell.ascLe_none hab
  · refine List.Pairwise.imp ?_ (sortPositions_sorted T j false)
    intro a b hab hn
    rw [hn] at hab
    simp only [cellLe] at hab
    exact Cell.ascLe_none (by simpa using hab)

/-- Witness for C4 at the test fixture and the column "three": the sorted
permutation is [1, 0, 4, 2, 3, 5], giving values [c, 3, 3, null, null,
null] with the two equal keys 3 in original order and nulls last. -/
theorem claim_C4_sort_stable_witness :
    tDict.resolveColumn (Label.str "three") = some 2 ∧
      (tDict.sort_by_column (Label.str "three") true = some
        ⟨tDict.columns,
         (sortPositions tDict 2 true).map (fun p => tDict.index.getD p (Label.int 0)),
         (sortPositions tDict 2 true).map (fun p => tDict.rows.getD p [])⟩) ∧
      sortPositions tDict 2 true = [1, 0, 4, 2, 3, 5] ∧
      (sortPositions tDict 2 true).map
          (fun p => (tDict.rows.getD p []).getD 2 none) =
        [some (Value.str "c"), some (Value.int 3), some (Value.int 3), none, none, none] := by
  have h := claim_C4_sort_stable tDict (Label.str "three") 2 (by decide)
  exact ⟨by decide, h.1, by decide, by decide⟩


theorem findCol_some_mem : ∀ {cols : List Label} {k : Label} {j : Nat},
    findCol cols k = some j → k ∈ cols
  | [], _, _, h => Option.noConfusion h
  | c :: cs, k, j, h => by
      simp only [findCol] at h
      by_cases hc : c = k
      · exact hc ▸ List.mem_cons_self c cs
      · rw [if_neg hc] at h
        cases hf : findCol cs k with
        | none => rw [hf] at h; exact Option.noConfusion h
        | some j2 => exact List.mem_cons_of_mem c (findCol_some_mem hf)

theorem applyKVCore_cols_str (cols : List Label) (prev : List (List Cell))
    (row : List Cell) (k : Label) (v : Cell) (hk : isStr k = true) :
    (applyKVCore cols prev row k v).1 = insertNew cols k := by
  cases k with
  | int z => exact absurd hk (by simp [isStr])
  | str s =>
    unfold applyKVCore insertNew
    cases hf : findCol cols (Label.str s) with
    | some j =>
      rw [if_pos (findCol_some_mem hf)]
    | none =>
      have hm : Label.str s ∉ cols := by
        intro hm
        have := findCol_mem hm
        rw [hf] at this
        exact absurd this (by simp)
      rw [if_neg hm]

theorem foldl_applyKV_cols_str :
    ∀ (kvs : List (Label × Cell)) (st : List Label × List (List Cell) × List Cell),
    (∀ kv ∈ kvs, isStr kv.1 = true) →
    (kvs.foldl applyKV st).1 = kvs.foldl (fun acc kv => insertNew acc kv.1) st.1
  | [], _, _ => rfl
  | kv :: kvs, st, h => by
      simp only [List.foldl_cons]
      rw [foldl_applyKV_cols_str kvs (applyKV st kv)
        (fun x hx => h x (List.mem_cons_of_mem kv hx))]
      rw [show (applyKV st kv).1 = insertNew st.1 kv.1 from
        applyKVCore_cols_str st.1 st.2.1 st.2.2 kv.1 kv.2 (h kv (List.mem_cons_self kv kvs))]

theorem buildInferred_cols_str :
    ∀ (data : List (List (Label × Cell))) (st : List Label × List (List Cell)),
    (∀ kvs ∈ data, ∀ kv ∈ kvs, isStr kv.1 = true) →
    ((data.map RowData.dict).foldl buildStep st).1 =
      (data.map (fun kvs => kvs.map (fun kv => kv.1))).foldl
        (fun acc ks => ks.foldl insertNew acc) st.1
  | [], _, _ => rfl
  | kvs :: data, st, h => by
      simp only [List.map_cons, List.foldl_cons]
      rw [buildInferred_cols_str data (buildStep st (RowData.dict kvs))
        (fun x hx kv hkv => h x (List.mem_cons_of_mem kvs hx) kv hkv)]
      have hstep : (buildStep st (RowData.dict kvs)).1 =
          (kvs.map (fun kv => kv.1)).foldl insertNew st.1 := by
        simp only [buildStep]
        rw [foldl_applyKV_cols_str kvs (st.1, st.2, List.replicate st.1.length none)
          (fun kv hkv => h kvs (List.mem_cons_self kvs data) kv hkv)]
        rw [List.foldl_map]
      rw [hstep]

/-- C2 counterexample: constructing from mapping rows whose keys are the
integers 1 and 2 yields three columns [0, 1, 2] (column 0 synthesized and
null-filled), not exactly the two columns {1, 2} as the claim states. -/
theorem claim_C2_counterexample :
    (construct intKeyData none).columns = [Label.int 0, Label.int 1, Label.int 2] ∧
      (construct intKeyData none).columns.length = 3 ∧
      ¬ (construct intKeyData none).columns = [Label.int 1, Label.int 2] := by
  refine ⟨by decide, by decide, by decide⟩

/-- C2 as amended: with no explicit columns, the inferred columns are the
union of all keys seen across the mapping rows in first-seen order as long
as every key is a string label; an integer key that does not match an
existing column label is instead resolved as a column position, growing the
table with synthesized positional columns, so rows with the integer keys 1
and 2 produce the three columns [0, 1, 2] with column 0 entirely null. -/
theorem claim_C2_inferred_columns (data : List (List (Label × Cell)))
    (h : ∀ kvs ∈ data, ∀ kv ∈ kvs, isStr kv.1 = true) :
    (construct (data.map RowData.dict) none).columns =
      firstSeenUnion (data.map (fun kvs => kvs.map (fun kv => kv.1))) ∧
    (construct intKeyData none).columns = [Label.int 0, Label.int 1, Label.int 2] ∧
    (construct intKeyData none).dimensions = (3, 3) ∧
    (construct intKeyData none).get_cell_pos 0 0 = none := by
  refine ⟨?_, by decide, by decide, by decide⟩
  show (buildInferred (data.map RowData.dict)).1 = _
  unfold buildInferred firstSeenUnion
  exact buildInferred_cols_str data ([], []) h

/-- Witness for C2: the scenario A mapping rows have string keys and the
inferred columns are their first-seen union. -/
theorem claim_C2_inferred_columns_witness :
    (construct
        ([[(Label.str "one", some (Value.int 1)), (Label.str "two", some (Value.int 2)),
           (Label.str "three", some (Value.int 3))],
          [(Label.str "one", some (Value.int 1)), (Label.str "two", some (Value.int 2)),
           (Label.str "four", some (Value.int 4))],
          ([] : List (Label × Cell))].map RowData.dict) none).columns =
      firstSeenUnion
        ([[(Label.str "one", some (Value.int 1)), (Label.str "two", some (Value.int 2)),
           (Label.str "three", some (Value.int 3))],
          [(Label.str "one", some (Value.int 1)), (Label.str "two", some (Value.int 2)),
           (Label.str "four", some (Value.int 4))],
          ([] : List (Label × Cell))].map (fun kvs => kvs.map (fun kv => kv.1))) ∧
    firstSeenUnion
        ([[(Label.str "one", some (Value.int 1)), (Label.str "two", some (Value.int 2)),
           (Label.str "three", some (Value.int 3))],
          [(Label.str "one", some (Value.int 1)), (Label.str "two", some (Value.int 2)),
           (Label.str "four", some (Value.int 4))],
          ([] : List (Label × Cell))].map (fun kvs => kvs.map (fun kv => kv.1))) =
      [Label.str "one", Label.str "two", Label.str "three", Label.str "four"] := by
  refine ⟨?_, by decide⟩
  exact (claim_C2_inferred_columns _ (by decide)).1


/-! Single-step evaluation lemmas for the csv scanner. -/

theorem scan_nil (b : Bool) (cur : List Char) (acc : List (List Char)) :
    scan [] b cur acc = (cur.reverse :: acc).reverse := by
  cases b <;> rfl

theorem scan_step_comma (rest cur : List Char) (acc : List (List Char)) :
    scan (',' :: rest) false cur acc = scan rest false [] (cur.reverse :: acc) := by
  cases rest <;> simp [scan]

theorem scan_step_quote_false (rest cur : List Char) (acc : List (List Char)) :
    scan ('"' :: rest) false cur acc = scan rest true cur acc := by
  cases rest <;> simp [scan]

theorem scan_step_other_false (c : Char) (rest cur : List Char) (acc : List (List Char))
    (h1 : ¬ c = ',') (h2 : ¬ c = '"') :
    scan (c :: rest) false cur acc = scan rest false (c :: cur) acc := by
  cases rest <;> simp [scan, h1, h2]

theorem scan_step_qq (rest cur : List Char) (acc : List (List Char)) :
    scan ('"' :: '"' :: rest) true cur acc = scan rest true ('"' :: cur) acc := by
  simp [scan]

theorem scan_step_q_end (cur : List Char) (acc : List (List Char)) :
    scan ['"'] true cur acc = (cur.reverse :: acc).reverse := by
  simp [scan]

theorem scan_step_q_other (c : Char) (rest cur : List Char) (acc : List (List Char))
    (h : ¬ c = '"') :
    scan ('"' :: c :: rest) true cur acc = scan (c :: rest) false cur acc := by
  simp [scan, h]

theorem scan_step_other_true (c : Char) (rest cur : List Char) (acc : List (List Char))
    (h : ¬ c = '"') :
    scan (c :: rest) true cur acc = scan rest true (c :: cur) acc := by
  cases rest <;> simp [scan, h]

theorem not_needQuote (f : List Char) (h : ¬ needQuote f = true) :
    ∀ c ∈ f, ¬ c = ',' ∧ ¬ c = '"' := by
  intro c hc
  constructor
  · intro heq
    refine h ?_
    unfold needQuote
    rw [List.any_eq_true]
    exact ⟨c, hc, by simp [heq]⟩
  · intro heq
    refine h ?_
    unfold needQuote
    rw [List.any_eq_true]
    exact ⟨c, hc, by simp [heq]⟩

theorem scan_raw (f : List Char) (h : ∀ c ∈ f, ¬ c = ',' ∧ ¬ c = '"') :
    ∀ (rest cur : List Char) (acc : List (List Char)),
    scan (f ++ rest) false cur acc = scan rest false (f.reverse ++ cur) acc := by
  induction f with
  | nil => intro rest cur acc; simp
  | cons c f2 ih =>
    intro rest cur acc
    have hc := h c (List.mem_cons_self c f2)
    have h2 : ∀ x ∈ f2, ¬ x = ',' ∧ ¬ x = '"' :=
      fun x hx => h x (List.mem_cons_of_mem c hx)
    rw [List.cons_append, scan_step_other_false c (f2 ++ rest) cur acc hc.1 hc.2]
    rw [ih h2 rest (c :: cur) acc]
    simp

theorem scan_quoted (f : List Char) :
    ∀ (rest cur : List Char) (acc : List (List Char)), headNotQuote rest →
    scan (dub f ++ ('"' :: rest)) true cur acc = scan rest false (f.reverse ++ cur) acc := by
  induction f with
  | nil =>
    intro rest cur acc hrest
    show scan ('"' :: rest) true cur acc = _
    cases rest with
    | nil =>
      rw [scan_step_q_end cur acc, scan_nil]
      simp
    | cons c2 rest2 =>
      have hc2 : ¬ c2 = '"' := hrest
      rw [scan_step_q_other c2 rest2 cur acc hc2]
      simp
  | cons c f2 ih =>
    intro rest cur acc hrest
    by_cases hc : c = '"'
    · subst hc
      have hd : dub ('"' :: f2) ++ ('"' :: rest) =
          '"' :: '"' :: (dub f2 ++ ('"' :: rest)) := by
        simp [dub]
      rw [hd, scan_step_qq (dub f2 ++ ('"' :: rest)) cur acc]
      rw [ih rest ('"' :: cur) acc hrest]
      simp
    · have hd : dub (c :: f2) ++ ('"' :: rest) = c :: (dub f2 ++ ('"' :: rest)) := by
        simp [dub, hc]
      rw [hd, scan_step_other_true c (dub f2 ++ ('"' :: rest)) cur acc hc]
      rw [ih rest (c :: cur) acc hrest]
      simp

theorem scan_esc_comma (f : List Char) (rest : List Char) (acc : List (List Char)) :
    scan (escChars f ++ (',' :: rest)) false [] acc = scan rest false [] (f :: acc) := by
  unfold escChars
  by_cases hq : needQuote f = true
  · rw [if_pos hq]
    have hd : ('"' :: (dub f ++ ['"'])) ++ (',' :: rest) =
        '"' :: (dub f ++ ('"' :: (',' :: rest))) := by
      simp
    rw [hd, scan_step_quote_false (dub f ++ ('"' :: (',' :: rest))) [] acc]
    rw [scan_quoted f (',' :: rest) [] acc (by intro hh; exact absurd hh (by decide))]
    rw [List.append_nil, scan_step_comma rest f.reverse acc, List.reverse_reverse]
  · rw [if_neg hq]
    rw [scan_raw f (not_needQuote f hq) (',' :: rest) [] acc]
    rw [List.append_nil, scan_step_comma rest f.reverse acc, List.reverse_reverse]

theorem scan_esc_end (f : List Char) (acc : List (List Char)) :
    scan (escChars f) false [] acc = (f :: acc).reverse := by
  unfold escChars
  by_cases hq : needQuote f = true
  · rw [if_pos hq]
    have hd : ('"' :: (dub f ++ ['"'])) = '"' :: (dub f ++ ('"' :: [])) := rfl
    rw [hd, scan_step_quote_false (dub f ++ ('"' :: [])) [] acc]
    rw [scan_quoted f [] [] acc trivial]
    rw [List.append_nil, scan_nil]
    rw [List.reverse_reverse]
  · rw [if_neg hq]
    have hr := scan_raw f (not_needQuote f hq) [] [] acc
    rw [List.append_nil, List.append_nil] at hr
    rw [hr, scan_nil, List.reverse_reverse]

theorem scan_joinFields : ∀ (fields : List (List Char)) (acc : List (List Char)),
    fields ≠ [] → scan (joinFields fields) false [] acc = (fields.reverse ++ acc).reverse
  | [], _, h => absurd rfl h
  | [f], acc, _ => by
      show scan (escChars f) false [] acc = _
      rw [scan_esc_end f acc]
      simp
  | f :: g :: rest, acc, _ => by
      show scan (escChars f ++ (',' :: joinFields (g :: rest))) false [] acc = _
      rw [scan_esc_comma f (joinFields (g :: rest)) acc]
      rw [scan_joinFields (g :: rest) (f :: acc) (by simp)]
      simp

theorem joinFields_ne_nil : ∀ (fields : List (List Char)),
    fields ≠ [] → fields ≠ [[]] → joinFields fields ≠ []
  | [], h, _ => absurd rfl h
  | [f], _, h2 => by
      show escChars f ≠ []
      unfold escChars
      by_cases hq : needQuote f = true
      · rw [if_pos hq]; simp
      · rw [if_neg hq]
        intro hf
        exact h2 (by rw [hf])
  | f :: g :: rest, _, _ => by
      show escChars f ++ (',' :: joinFields (g :: rest)) ≠ []
      simp

theorem parse_render (fields : List (List Char)) :
    parseRecord (renderRecord fields) = fields := by
  unfold renderRecord
  by_cases hsp : fields = [[]]
  · rw [if_pos hsp, hsp]
    decide
  · rw [if_neg hsp]
    cases hf : fields with
    | nil => rfl
    | cons f rest =>
      unfold parseRecord
      rw [if_neg (joinFields_ne_nil (f :: rest) (by simp) (hf ▸ hsp))]
      rw [scan_joinFields (f :: rest) [] (by simp)]
      simp


theorem map_id_of_eq {α : Type} (f : α → α) :
    ∀ (l : List α), (∀ x ∈ l, f x = x) → l.map f = l
  | [], _ => rfl
  | x :: l, h => by
      simp only [List.map_cons]
      rw [h x (List.mem_cons_self x l), map_id_of_eq f l
        (fun y hy => h y (List.mem_cons_of_mem x hy))]

theorem padTo_self {w : Nat} {r : List Cell} (h : r.length = w) : padTo w r = r := by
  unfold padTo
  rw [h, Nat.sub_self]
  simp

/-- C7 counterexample: a table with a null-sentinel cell does not round
trip: the null cell is written as an empty field and read back as the empty
string, not as the null sentinel. -/
theorem claim_C7_counterexample :
    (readCsvRecords (writeCsvRecords tNull true) true).rows =
      [[some (Value.str "x"), some (Value.str "")]] ∧
    ¬ (readCsvRecords (writeCsvRecords tNull true) true).rows = tNull.rows ∧
    (readCsvRecords (writeCsvRecords tNull true) true).columns = tNull.columns := by
  refine ⟨by decide, by decide, by decide⟩

/-- C7 as amended: for every well-formed Table whose column labels are
strings and whose cells are all string values, writing with `write_csv` and
reading back with `read_csv` under a matching header setting reproduces the
columns and every cell identically, with all values read as text; a
null-sentinel cell, however, is rendered as an empty field and read back as
the empty string rather than the null sentinel, so tables containing nulls
are not reproduced exactly. -/
theorem claim_C7_csv_roundtrip (T : Table) (hwf : T.WF)
    (hcols : ∀ c ∈ T.columns, isStr c = true)
    (hcells : ∀ r ∈ T.rows, ∀ x ∈ r, isStrCell x = true) :
    (readCsvRecords (writeCsvRecords T true) true).columns = T.columns ∧
    (readCsvRecords (writeCsvRecords T true) true).rows = T.rows ∧
    (readCsvRecords (writeCsvRecords T true) true).index =
      (List.range T.rows.length).map intLabel := by
  have hread : readCsvRecords (writeCsvRecords T true) true =
      tableFromParsed
        ((parseRecord (renderRecord (T.columns.map labelField))).map
          (fun f => Label.str (String.mk f)))
        (T.rows.map (fun r => renderRecord (r.map cellField))) := rfl
  have hcols2 : (parseRecord (renderRecord (T.columns.map labelField))).map
      (fun f => Label.str (String.mk f)) = T.columns := by
    rw [parse_render, List.map_map]
    refine map_id_of_eq _ T.columns ?_
    intro c hc
    cases c with
    | str s => rfl
    | int z => exact absurd (hcols _ hc) (by simp [isStr])
  have hrow : ∀ r ∈ T.rows,
      padTo T.columns.length
        (((parseRecord (renderRecord (r.map cellField))).take T.columns.length).map
          (fun f => some (Value.str (String.mk f)))) = r := by
    intro r hr
    rw [parse_render]
    have hlen : (r.map cellField).length = T.columns.length := by
      rw [List.length_map]
      exact hwf.2 r hr
    rw [List.take_of_length_le (by rw [hlen])]
    rw [List.map_map]
    have hmap : r.map ((fun f => some (Value.str (String.mk f))) ∘ cellField) = r := by
      refine map_id_of_eq _ r ?_
      intro x hx
      have := hcells r hr x hx
      cases x with
      | none => exact absurd this (by simp [isStrCell])
      | some v =>
        cases v with
        | str s => rfl
        | int z => exact absurd this (by simp [isStrCell])
    rw [hmap]
    exact padTo_self (hwf.2 r hr)
  refine ⟨?_, ?_, ?_⟩
  · rw [hread]
    simp only [tableFromParsed]
    exact hcols2
  · rw [hread]
    simp only [tableFromParsed, hcols2, List.map_map]
    refine map_id_of_eq _ T.rows ?_
    intro r hr
    exact hrow r hr
  · rw [hread]
    simp only [tableFromParsed, List.length_map]
    rfl

/-- Witness for C7 at the all-string fixture with embedded delimiter and
quote characters: the round trip reproduces columns and cells. -/
theorem claim_C7_csv_roundtrip_witness :
    (readCsvRecords (writeCsvRecords tStr true) true).columns = tStr.columns ∧
      (readCsvRecords (writeCsvRecords tStr true) true).rows = tStr.rows ∧
      (readCsvRecords (writeCsvRecords tStr true) true).index =
        (List.range tStr.rows.length).map intLabel := by
  have h := claim_C7_csv_roundtrip tStr (by decide) (by decide) (by decide)
  exact ⟨h.1, h.2.1, h.2.2⟩

end RPATables
